import Mathlib

/-!
Shallow embedding of `src/frontend/src/model/dag.rs`: the in-memory DAG of
event records (`RoomEvents`), its ingestion path (`add_event_nodes`,
`update_event_edges`, `add_events`), and the subgraph extractor
(`new_nodes_edges`, `add_earlier_events_to_data_set`,
`add_new_events_to_data_set`).

Modelling conventions:
* `petgraph::Graph<Event, (), Directed>` is modelled as a node arena
  (`List Event`, node index = list position, `add_node` appends) together
  with an edge list `List (Nat × Nat)` in insertion order;
  `Graph::update_edge` inserts the pair only when absent (the edge weight
  is `()`, so updating an existing edge is a no-op).
* `HashMap<String, NodeIndex>` is modelled as an association list where
  `insert` overwrites the binding of an existing key.
* Rust panics (`unwrap` on a missing map entry, `expect` on a decode
  failure) are modelled by `Option`: `none` is the aborted call.
-/

namespace VisDag

/-- A display field selector (`Field` lives in `event.rs`, outside `src/`);
only its identity matters here, so it is modelled as a string. -/
abbrev Field := String

/-- Modelled from the spec: the Event Record (`event.rs` is not under
`src/`). Per §3 it carries the identifier, the signed depth, the ordered
list of declared predecessor identifiers, and an open map of named fields
used only for display labeling. -/
structure Event where
  event_id : String
  depth : Int
  prev_events : List String
  fields : List (String × String)
  deriving DecidableEq

/-- Accessor mirroring `Event::get_prev_events`. -/
def Event.get_prev_events (e : Event) : List String :=
  e.prev_events

/-- Model of `OrphanInfo { id, depth }`. -/
structure OrphanInfo where
  id : String
  depth : Int
  deriving DecidableEq

/-- The colors of the data set's node. -/
structure NodeColor where
  border : String
  background : String
  deriving DecidableEq

/-- A node of the vis.js data set. -/
structure DataSetNode where
  id : String
  label : String
  level : Int
  color : NodeColor
  deriving DecidableEq

/-- An edge of the vis.js data set. -/
structure DataSetEdge where
  id : String
  «from» : String
  «to» : String
  deriving DecidableEq

/-- The data set containing events which will be added to the vis.js
network. -/
structure DataSet where
  nodes : List DataSetNode
  edges : List DataSetEdge
  deriving DecidableEq

/-- Model of `DataSet::new()`. -/
def DataSet.new : DataSet :=
  { nodes := [], edges := [] }

/-- Modelled from the spec: `Event::to_data_set_node` (in `event.rs`, not
under `src/`). Per §4.3 the node keeps the event's identifier, its label is
composed from the selected display fields plus the depth (the level), and
the color is derived deterministically from the event's metadata. -/
def Event.to_data_set_node (e : Event) (serverName : String)
    (fields : List Field) : DataSetNode :=
  let vals := fields.filterMap (fun f => e.fields.lookup f)
  { id := e.event_id
    label := String.intercalate "\n" (vals ++ [toString e.depth])
    level := e.depth
    color :=
      { border := "black"
        background :=
          if (e.fields.lookup "state_key").isSome then "#f4c2c2"
          else if serverName = "" then "white" else "white" } }

/-- The node arena plus directed edge list standing in for
`petgraph::Graph<Event, (), Directed>`. An edge `(c, p)` points from a
child event to one of its declared predecessors. -/
structure Dag where
  nodes : List Event
  edges : List (Nat × Nat)
  deriving DecidableEq

/-- Model of `Graph::update_edge`: add the edge when absent, otherwise leave the
graph unchanged (all edge weights are `()`). -/
def Dag.update_edge (g : Dag) (src dst : Nat) : Dag :=
  if (src, dst) ∈ g.edges then g
  else { g with edges := g.edges ++ [(src, dst)] }

/-- Model of `edges_directed(i, Direction::Outgoing).count()`. -/
def Dag.outdeg (g : Dag) (i : Nat) : Nat :=
  (g.edges.filter (fun e => decide (e.1 = i))).length

/-- Model of `edges_directed(i, Direction::Incoming).count()`. -/
def Dag.indeg (g : Dag) (i : Nat) : Nat :=
  (g.edges.filter (fun e => decide (e.2 = i))).length

/-- The outgoing neighbor list of a node, in edge-insertion order (the
order petgraph's BFS walks successors). -/
def Dag.succs (g : Dag) (i : Nat) : List Nat :=
  (g.edges.filter (fun e => decide (e.1 = i))).map (fun e => e.2)

/-- Model of `Graph::reverse`: flip the direction of every edge in place. -/
def Dag.reverse (g : Dag) : Dag :=
  { g with edges := g.edges.map (fun e => (e.2, e.1)) }

/-- Model of `HashMap::insert` on the identifier map: overwrite any existing
binding for the key. -/
def insertKV (m : List (String × Nat)) (k : String) (v : Nat) :
    List (String × Nat) :=
  (k, v) :: m.filter (fun p => decide (¬ p.1 = k))

/-- The depth map update of `add_event_nodes`: push the node index onto
the bucket of its depth, creating the bucket when missing. -/
def addToDepthMap (m : List (Int × List Nat)) (d : Int) (i : Nat) :
    List (Int × List Nat) :=
  match m.lookup d with
  | none => (d, [i]) :: m
  | some v => (d, v ++ [i]) :: m.filter (fun p => decide (¬ p.1 = d))

/-- The internal representation of the events DAG of the room being
observed, mirroring `RoomEvents` field by field. -/
structure RoomEvents where
  room_id : String
  server_name : String
  fields : List Field
  dag : Dag
  events_map : List (String × Nat)
  depth_map : List (Int × List Nat)
  latest_events : List String
  earliest_events : List String
  orphan_events : List OrphanInfo
  max_depth : Int
  min_depth : Int
  deriving DecidableEq

/-- The empty store every construction path starts from: empty graph and
maps, `max_depth = min_depth = -1`. -/
def newRoomEvents (roomId serverName : String) (fields : List Field) :
    RoomEvents :=
  { room_id := roomId
    server_name := serverName
    fields := fields
    dag := { nodes := [], edges := [] }
    events_map := []
    depth_map := []
    latest_events := []
    earliest_events := []
    orphan_events := []
    max_depth := -1
    min_depth := -1 }

/-- One iteration of the `add_event_nodes` loop: append the event as a new
node, index it, file it under its depth, and update the depth bounds with
the `-1`-sentinel comparison the source uses. -/
def addNodeStep (st : RoomEvents) (event : Event) : RoomEvents :=
  let index := st.dag.nodes.length
  { st with
    dag := { st.dag with nodes := st.dag.nodes ++ [event] }
    events_map := insertKV st.events_map event.event_id index
    depth_map := addToDepthMap st.depth_map event.depth index
    max_depth :=
      if st.max_depth = -1 ∨ event.depth > st.max_depth then event.depth
      else st.max_depth
    min_depth :=
      if st.min_depth = -1 ∨ event.depth < st.min_depth then event.depth
      else st.min_depth }

/-- Model of `RoomEvents::add_event_nodes`. -/
def RoomEvents.add_event_nodes (st : RoomEvents) (events : List Event) :
    RoomEvents :=
  events.foldl addNodeStep st

/-- The inner loop of the edge pass: for one source node, ensure an edge
to each resolvable declared predecessor. -/
def addPrevEdges (g : Dag) (srcIdx : Nat) (prevIdx : List Nat) : Dag :=
  prevIdx.foldl (fun g' dst => g'.update_edge srcIdx dst) g

/-- The edge pass of `update_event_edges`: for every node currently in the
graph, resolve its declared predecessors through the identifier map
(ignoring the unresolvable ones) and ensure the corresponding edges. The
node arena is never changed by this pass. -/
def updateEdgesPhase (g : Dag) (emap : List (String × Nat)) : Dag :=
  g.nodes.enum.foldl
    (fun g' p =>
      addPrevEdges g' p.1
        (p.2.get_prev_events.filterMap (fun id => emap.lookup id)))
    g

/-- Model of `RoomEvents::update_event_edges`: run the edge pass, then clear and
rebuild `latest_events` (zero incoming edges), `earliest_events` (zero
outgoing edges) and `orphan_events` (outgoing-edge count strictly below
the length of the declared predecessor list) by one scan over the nodes in
index order. -/
def RoomEvents.update_event_edges (st : RoomEvents) : RoomEvents :=
  let g := updateEdgesPhase st.dag st.events_map
  { st with
    dag := g
    latest_events :=
      g.nodes.enum.filterMap
        (fun p => if g.indeg p.1 = 0 then some p.2.event_id else none)
    earliest_events :=
      g.nodes.enum.filterMap
        (fun p => if g.outdeg p.1 = 0 then some p.2.event_id else none)
    orphan_events :=
      g.nodes.enum.filterMap
        (fun p =>
          if g.outdeg p.1 < p.2.get_prev_events.length then
            some { id := p.2.event_id, depth := p.2.depth }
          else none) }

/-- Explicitly recursive `mapM` over `Option`, mirroring the source's
map-then-`unwrap`/`?` pattern: the whole call fails as soon as one element
fails to convert. -/
def mapMOption (f : α → Option β) : List α → Option (List β)
  | [] => some []
  | x :: xs => do
    let y ← f x
    let ys ← mapMOption f xs
    pure (y :: ys)

/-- Model of `parse_events`, with the per-record decoder abstract (the decoding
itself lives in `event.rs`/serde, outside `src/`): any record failing to
decode makes the whole parse fail, before anything else happens. -/
def parse_events (decode : α → Option Event) (raws : List α) :
    Option (List Event) :=
  mapMOption decode raws

/-- Model of `RoomEvents::add_events`: parse the whole batch first (a decode
failure aborts the call before any state is touched), then add the nodes
and recompute edges and frontier state. -/
def RoomEvents.add_events (decode : α → Option Event) (st : RoomEvents)
    (raws : List α) : Option RoomEvents := do
  let events ← parse_events decode raws
  pure ((st.add_event_nodes events).update_event_edges)

/-- Model of `from_deepest_events` (and, for a known room, `from_sync_response`):
build the empty store, then ingest the initial batch. -/
def from_deepest_events (roomId serverName : String) (fields : List Field)
    (decode : α → Option Event) (raws : List α) : Option RoomEvents :=
  (newRoomEvents roomId serverName fields).add_events decode raws

/-- A whole session: fold a sequence of already-decoded batches through
`add_event_nodes` + `update_event_edges`, exactly the mutation path every
construction and `add_events` call takes. -/
def ingestAll (init : RoomEvents) (batches : List (List Event)) :
    RoomEvents :=
  batches.foldl (fun st evs => (st.add_event_nodes evs).update_event_edges)
    init

/-- Model of `HashSet::insert` on a list kept duplicate-free: append the element
when absent. -/
def insertNew [DecidableEq α] (x : α) (xs : List α) : List α :=
  if x ∈ xs then xs else xs ++ [x]

/-- Fuel-driven breadth-first search along outgoing edges with an explicit
visited list, standing in for `petgraph::visit::Bfs`. The fuel chosen in
`Dag.bfs` dominates the number of queue pops, so it never runs out. -/
def bfsAux (g : Dag) : Nat → List Nat → List Nat → List Nat
  | 0, _, visited => visited
  | _ + 1, [], visited => visited
  | fuel + 1, x :: queue, visited =>
    if x ∈ visited then bfsAux g fuel queue visited
    else bfsAux g fuel (queue ++ g.succs x) (visited ++ [x])

/-- All nodes reachable from `start` (including `start`), the set
`Bfs::new(&dag, start)` visits. -/
def Dag.bfs (g : Dag) (start : Nat) : List Nat :=
  bfsAux g (g.nodes.length + g.edges.length + 1) [start] []

/-- Model of `new_nodes_edges`: gather every node reachable from the boundary
indices, drop the boundary itself, and collect the incoming edges of each
remaining (newly discovered) node. -/
def new_nodes_edges (g : Dag) (fromIndices : List Nat) :
    List Nat × List (Nat × Nat) :=
  let nodeIndices :=
    fromIndices.foldl
      (fun acc b => (g.bfs b).foldl (fun a x => insertNew x a) acc)
      fromIndices
  let newNodeIndices := nodeIndices.filter (fun i => decide (i ∉ fromIndices))
  let newEdges :=
    newNodeIndices.foldl
      (fun acc i =>
        (g.edges.filter (fun e => decide (e.2 = i))).foldl
          (fun a e => insertNew e a) acc)
      []
  (newNodeIndices, newEdges)

/-- Model of `RoomEvents::to_data_set_edge` (it reads only the graph, so it is
stated on `Dag`): project an index pair to a rendered edge, failing on a
dangling index. -/
def Dag.to_data_set_edge (g : Dag) (p : Nat × Nat) : Option DataSetEdge := do
  let src ← g.nodes.get? p.1
  let dst ← g.nodes.get? p.2
  pure
    { id := src.event_id ++ dst.event_id
      «from» := src.event_id
      «to» := dst.event_id }

/-- The new nodes and edges `add_earlier_events_to_data_set` computes
before pushing them: resolve the boundary identifiers (any unknown
identifier aborts the call, as the source's `unwrap` does), run
`new_nodes_edges` on the graph as stored, and project the results. -/
def RoomEvents.earlier_events_delta (st : RoomEvents)
    (fromIds : List String) :
    Option (List DataSetNode × List DataSetEdge) := do
  let fromIndices ← mapMOption (fun id => st.events_map.lookup id) fromIds
  let p := new_nodes_edges st.dag fromIndices
  let nodes ←
    mapMOption
      (fun i =>
        (st.dag.nodes.get? i).map
          (fun ev => ev.to_data_set_node st.server_name st.fields))
      p.1
  let edges ← mapMOption st.dag.to_data_set_edge p.2
  pure (nodes, edges)

/-- Model of `RoomEvents::add_earlier_events_to_data_set`: append the computed new
nodes and edges to the caller's data set. The store itself is only read. -/
def RoomEvents.add_earlier_events_to_data_set (st : RoomEvents)
    (ds : DataSet) (fromIds : List String) : Option DataSet :=
  (st.earlier_events_delta fromIds).map
    (fun p => { nodes := ds.nodes ++ p.1, edges := ds.edges ++ p.2 })

/-- The new nodes and edges `add_new_events_to_data_set` computes before
pushing them: clone and reverse the graph, run `new_nodes_edges` on the
reversed view, flip the discovered edges back (collected through a
`HashSet`), and project the results against the original graph. -/
def RoomEvents.new_events_delta (st : RoomEvents) (fromIds : List String) :
    Option (List DataSetNode × List DataSetEdge) := do
  let revDag := st.dag.reverse
  let fromIndices ← mapMOption (fun id => st.events_map.lookup id) fromIds
  let p := new_nodes_edges revDag fromIndices
  let newEdges := p.2.foldl (fun acc e => insertNew (e.2, e.1) acc) []
  let nodes ←
    mapMOption
      (fun i =>
        (st.dag.nodes.get? i).map
          (fun ev => ev.to_data_set_node st.server_name st.fields))
      p.1
  let edges ← mapMOption st.dag.to_data_set_edge newEdges
  pure (nodes, edges)

/-- Model of `RoomEvents::add_new_events_to_data_set`: append the computed new
nodes and edges to the caller's data set. The store itself is only read. -/
def RoomEvents.add_new_events_to_data_set (st : RoomEvents) (ds : DataSet)
    (fromIds : List String) : Option DataSet :=
  (st.new_events_delta fromIds).map
    (fun p => { nodes := ds.nodes ++ p.1, edges := ds.edges ++ p.2 })

/-- Model of `RoomEvents::change_fields`: replace the configured display-field
set. -/
def RoomEvents.change_fields (st : RoomEvents) (fields : List Field) :
    RoomEvents :=
  { st with fields := fields }

/-- Model of `RoomEvents::get_event`. -/
def RoomEvents.get_event (st : RoomEvents) (id : String) : Option Event :=
  (st.events_map.lookup id).bind (fun idx => st.dag.nodes.get? idx)

/-! ## Basic lemmas about the container helpers -/

theorem mem_insertNew [DecidableEq α] {x a : α} {xs : List α} :
    a ∈ insertNew x xs ↔ a = x ∨ a ∈ xs := by
  unfold insertNew
  split
  · constructor
    · exact fun h => Or.inr h
    · rintro (rfl | h)
      · assumption
      · assumption
  · simp [List.mem_append, or_comm]

theorem foldl_insertNew_mem [DecidableEq α] (xs : List α) :
    ∀ (acc : List α) (a : α),
      a ∈ xs.foldl (fun ac y => insertNew y ac) acc ↔ a ∈ acc ∨ a ∈ xs := by
  induction xs with
  | nil => intro acc a; simp
  | cons x xs ih =>
    intro acc a
    rw [List.foldl_cons, ih, mem_insertNew]
    simp only [List.mem_cons]
    tauto

theorem filterMap_ite (l : List α) (P : α → Prop) [DecidablePred P]
    (v : α → β) :
    l.filterMap (fun a => if P a then some (v a) else none) =
      (l.filter (fun a => decide (P a))).map v := by
  induction l with
  | nil => rfl
  | cons x xs ih =>
    by_cases h : P x <;> simp [List.filterMap_cons, List.filter_cons, h, ih]

theorem mapMOption_none {f : α → Option β} {l : List α}
    (h : ∃ r ∈ l, f r = none) : mapMOption f l = none := by
  induction l with
  | nil => simp at h
  | cons x xs ih =>
    rcases h with ⟨r, hr, hf⟩
    rcases List.mem_cons.mp hr with rfl | hr'
    · simp [mapMOption, hf]
    · cases hx : f x with
      | none => simp [mapMOption, hx]
      | some y => simp [mapMOption, hx, ih ⟨r, hr', hf⟩]

theorem mem_of_mapMOption {f : α → Option β} :
    ∀ {l : List α} {r : List β}, mapMOption f l = some r →
      ∀ b ∈ r, ∃ a ∈ l, f a = some b := by
  intro l
  induction l with
  | nil =>
    intro r h b hb
    simp [mapMOption] at h
    subst h
    simp at hb
  | cons x xs ih =>
    intro r h b hb
    cases hx : f x with
    | none => simp [mapMOption, hx] at h
    | some y =>
      cases hxs : mapMOption f xs with
      | none => simp [mapMOption, hx, hxs] at h
      | some ys =>
        simp [mapMOption, hx, hxs] at h
        subst h
        rcases List.mem_cons.mp hb with rfl | hb'
        · exact ⟨x, List.mem_cons_self _ _, hx⟩
        · rcases ih hxs b hb' with ⟨a, ha, hfa⟩
          exact ⟨a, List.mem_cons_of_mem _ ha, hfa⟩

theorem mapMOption_forward {f : α → Option β} :
    ∀ {l : List α} {r : List β}, mapMOption f l = some r →
      ∀ a ∈ l, ∃ b ∈ r, f a = some b := by
  intro l
  induction l with
  | nil => intro r _ a ha; simp at ha
  | cons x xs ih =>
    intro r h a ha
    cases hx : f x with
    | none => simp [mapMOption, hx] at h
    | some y =>
      cases hxs : mapMOption f xs with
      | none => simp [mapMOption, hx, hxs] at h
      | some ys =>
        simp [mapMOption, hx, hxs] at h
        subst h
        rcases List.mem_cons.mp ha with rfl | ha'
        · exact ⟨y, List.mem_cons_self _ _, hx⟩
        · rcases ih hxs a ha' with ⟨b, hb, hfb⟩
          exact ⟨b, List.mem_cons_of_mem _ hb, hfb⟩

theorem mem_of_lookup_eq_some [BEq α] [LawfulBEq α] {l : List (α × β)}
    {k : α} {v : β} (h : l.lookup k = some v) : (k, v) ∈ l := by
  induction l with
  | nil => simp [List.lookup] at h
  | cons p l ih =>
    obtain ⟨a, b⟩ := p
    cases hk : k == a
    · simp only [List.lookup_cons, hk] at h
      exact List.mem_cons_of_mem _ (ih h)
    · simp only [List.lookup_cons, hk, Option.some.injEq] at h
      have hkp : k = a := eq_of_beq hk
      rw [hkp, ← h]
      exact List.mem_cons_self _ _

/-! ## Lemmas about the graph primitives -/

theorem nodes_update_edge (g : Dag) (s t : Nat) :
    (g.update_edge s t).nodes = g.nodes := by
  unfold Dag.update_edge
  split <;> rfl

theorem edges_subset_update_edge (g : Dag) (s t : Nat) :
    g.edges ⊆ (g.update_edge s t).edges := by
  intro e he
  unfold Dag.update_edge
  split
  · exact he
  · exact List.mem_append_left _ he

theorem nodes_addPrevEdges (l : List Nat) :
    ∀ (g : Dag) (s : Nat), (addPrevEdges g s l).nodes = g.nodes := by
  induction l with
  | nil => intro g s; rfl
  | cons d l ih =>
    intro g s
    rw [addPrevEdges, List.foldl_cons]
    have := ih (g.update_edge s d) s
    rw [addPrevEdges] at this
    rw [this, nodes_update_edge]

theorem edges_subset_addPrevEdges (l : List Nat) :
    ∀ (g : Dag) (s : Nat), g.edges ⊆ (addPrevEdges g s l).edges := by
  induction l with
  | nil => intro g s e he; exact he
  | cons d l ih =>
    intro g s e he
    rw [addPrevEdges, List.foldl_cons]
    have step := edges_subset_update_edge g s d he
    have := ih (g.update_edge s d) s step
    rw [addPrevEdges] at this
    exact this

theorem nodes_updateEdgesPhase (g : Dag) (emap : List (String × Nat)) :
    (updateEdgesPhase g emap).nodes = g.nodes := by
  unfold updateEdgesPhase
  generalize g.nodes.enum = l
  induction l generalizing g with
  | nil => rfl
  | cons p l ih =>
    rw [List.foldl_cons]
    rw [ih]
    exact nodes_addPrevEdges _ g p.1

theorem edges_subset_updateEdgesPhase (g : Dag) (emap : List (String × Nat)) :
    g.edges ⊆ (updateEdgesPhase g emap).edges := by
  unfold updateEdgesPhase
  generalize g.nodes.enum = l
  induction l generalizing g with
  | nil => exact fun e he => he
  | cons p l ih =>
    intro e he
    rw [List.foldl_cons]
    exact ih _ (edges_subset_addPrevEdges _ g p.1 he)

/-! ## Claim C1: orphan detection -/

/-- Claim C1 (amended): immediately after any construction or add-batch
call returns (every such call ends by returning the result of
`update_event_edges`, so the statement quantifies over the state that call
runs on), an identifier-with-depth entry is in `orphan_events` iff some
node carries that identifier and depth and its outgoing-edge count is
strictly less than the LENGTH of its declared `prev_events` list â
duplicates counted, not the count of distinct predecessor identifiers the
original claim asserts (the counterexample below refutes that reading). -/
theorem orphan_events_iff_outdeg_lt_prev_len (st : RoomEvents)
    (info : OrphanInfo) :
    info ∈ st.update_event_edges.orphan_events ↔
      ∃ p ∈ st.update_event_edges.dag.nodes.enum,
        st.update_event_edges.dag.outdeg p.1 < p.2.prev_events.length ∧
          info = { id := p.2.event_id, depth := p.2.depth } := by
  simp only [RoomEvents.update_event_edges, List.mem_filterMap,
    Event.get_prev_events, Option.ite_none_right_eq_some, Option.some.injEq]
  constructor
  · rintro ⟨p, hp, hc, rfl⟩
    exact ⟨p, hp, hc, rfl⟩
  · rintro ⟨p, hp, hc, rfl⟩
    exact ⟨p, hp, hc, rfl⟩

/-- Concrete store refuting the "distinct" reading of claim C1: event `E`
declares `prev_events = ["A", "A"]` and `A` is present. -/
def stC1 : RoomEvents :=
  ingestAll (newRoomEvents "!r" "srv" [])
    [[⟨"A", 1, [], []⟩, ⟨"E", 2, ["A", "A"], []⟩]]

/-- Counterexample to claim C1 as stated: node `E` (index 1) has exactly
one outgoing edge and exactly one DISTINCT declared predecessor, so under
the claim it must not be an orphan; the code nevertheless lists it in
`orphan_events`, because it compares against the raw `prev_events` length
(2). -/
theorem orphan_distinct_count_refuted :
    ({ id := "E", depth := 2 } : OrphanInfo) ∈ stC1.orphan_events ∧
      stC1.dag.outdeg 1 = 1 ∧
      stC1.dag.nodes.get? 1 = some ⟨"E", 2, ["A", "A"], []⟩ ∧
      (["A", "A"] : List String).dedup.length = 1 ∧
      ¬ stC1.dag.outdeg 1 < (["A", "A"] : List String).dedup.length := by
  decide

/-! ## Claim C3: frontier correctness -/

/-- Brute-force scan of the edge list: identifiers of the nodes no edge
points into (zero incoming edges). -/
def bruteLatest (g : Dag) : List String :=
  (g.nodes.enum.filter
      (fun p => decide (∀ e ∈ g.edges, ¬ e.2 = p.1))).map
    (fun p => p.2.event_id)

/-- Brute-force scan of the edge list: identifiers of the nodes no edge
leaves from (zero outgoing edges). -/
def bruteEarliest (g : Dag) : List String :=
  (g.nodes.enum.filter
      (fun p => decide (∀ e ∈ g.edges, ¬ e.1 = p.1))).map
    (fun p => p.2.event_id)

theorem indeg_eq_zero_iff (g : Dag) (i : Nat) :
    g.indeg i = 0 ↔ ∀ e ∈ g.edges, ¬ e.2 = i := by
  unfold Dag.indeg
  rw [List.length_eq_zero, List.filter_eq_nil_iff]
  simp

theorem outdeg_eq_zero_iff (g : Dag) (i : Nat) :
    g.outdeg i = 0 ↔ ∀ e ∈ g.edges, ¬ e.1 = i := by
  unfold Dag.outdeg
  rw [List.length_eq_zero, List.filter_eq_nil_iff]
  simp

/-- Claim C3: immediately after any construction or add-batch call
returns (each ends by returning `update_event_edges` of the state it
built), `latest_events` is exactly the identifiers of nodes with zero
incoming edges and `earliest_events` exactly those with zero outgoing
edges, both equal to a brute-force scan of the current edge list. The
statement holds for EVERY prior state `st`, whatever stale frontier lists
it carries, which is the "rebuilt from scratch, never incrementally
patched" guarantee. -/
theorem frontier_matches_brute_force (st : RoomEvents) :
    st.update_event_edges.latest_events =
        bruteLatest st.update_event_edges.dag ∧
      st.update_event_edges.earliest_events =
        bruteEarliest st.update_event_edges.dag := by
  constructor
  · simp only [RoomEvents.update_event_edges, bruteLatest]
    rw [filterMap_ite]
    congr 1
    apply List.filter_congr
    intro p _
    rw [decide_eq_decide]
    exact indeg_eq_zero_iff _ _
  · simp only [RoomEvents.update_event_edges, bruteEarliest]
    rw [filterMap_ite]
    congr 1
    apply List.filter_congr
    intro p _
    rw [decide_eq_decide]
    exact outdeg_eq_zero_iff _ _

/-! ## Claim C2: depth bounds and the -1 sentinel -/

/-- The depth-bookkeeping invariant: all present depths avoid the sentinel
value, the bounds are `-1` exactly while the graph is empty, and once a
node exists `max_depth`/`min_depth` are attained depths bounding every
node's depth. -/
def depthBoundsOk (st : RoomEvents) : Prop :=
  (∀ e ∈ st.dag.nodes, e.depth ≠ -1) ∧
    (st.dag.nodes = [] → st.max_depth = -1 ∧ st.min_depth = -1) ∧
    (st.dag.nodes ≠ [] →
      (st.max_depth ∈ st.dag.nodes.map Event.depth ∧
          ∀ e ∈ st.dag.nodes, e.depth ≤ st.max_depth) ∧
        (st.min_depth ∈ st.dag.nodes.map Event.depth ∧
          ∀ e ∈ st.dag.nodes, st.min_depth ≤ e.depth))

theorem addNodeStep_nodes (st : RoomEvents) (ev : Event) :
    (addNodeStep st ev).dag.nodes = st.dag.nodes ++ [ev] := rfl

theorem addNodeStep_max (st : RoomEvents) (ev : Event) :
    (addNodeStep st ev).max_depth =
      if st.max_depth = -1 ∨ ev.depth > st.max_depth then ev.depth
      else st.max_depth := rfl

theorem addNodeStep_min (st : RoomEvents) (ev : Event) :
    (addNodeStep st ev).min_depth =
      if st.min_depth = -1 ∨ ev.depth < st.min_depth then ev.depth
      else st.min_depth := rfl

theorem depthBoundsOk_addNodeStep {st : RoomEvents} {ev : Event}
    (h : depthBoundsOk st) (hev : ev.depth ≠ -1) :
    depthBoundsOk (addNodeStep st ev) := by
  obtain ⟨hne, hempty, hfull⟩ := h
  refine ⟨?_, ?_, ?_⟩
  · intro e he
    rw [addNodeStep_nodes] at he
    rcases List.mem_append.mp he with h1 | h1
    · exact hne e h1
    · rw [List.mem_singleton.mp h1]
      exact hev
  · intro habs
    rw [addNodeStep_nodes] at habs
    simp at habs
  · intro _
    by_cases hcase : st.dag.nodes = []
    · obtain ⟨hmax, hmin⟩ := hempty hcase
      rw [addNodeStep_nodes, addNodeStep_max, addNodeStep_min, hmax, hmin,
        hcase]
      simp
    · obtain ⟨⟨hmaxmem, hmaxub⟩, hminmem, hminlb⟩ := hfull hcase
      have hmaxne : st.max_depth ≠ -1 := by
        rcases List.mem_map.mp hmaxmem with ⟨e, hemem, hedep⟩
        rw [← hedep]
        exact hne e hemem
      have hminne : st.min_depth ≠ -1 := by
        rcases List.mem_map.mp hminmem with ⟨e, hemem, hedep⟩
        rw [← hedep]
        exact hne e hemem
      rw [addNodeStep_nodes, addNodeStep_max, addNodeStep_min]
      constructor
      · by_cases hgt : ev.depth > st.max_depth
        · rw [if_pos (Or.inr hgt)]
          constructor
          · simp
          · intro e he
            rcases List.mem_append.mp he with h1 | h1
            · have := hmaxub e h1
              omega
            · rw [List.mem_singleton.mp h1]
        · rw [if_neg (by tauto)]
          constructor
          · rw [List.map_append]
            exact List.mem_append_left _ hmaxmem
          · intro e he
            rcases List.mem_append.mp he with h1 | h1
            · exact hmaxub e h1
            · rw [List.mem_singleton.mp h1]
              omega
      · by_cases hlt : ev.depth < st.min_depth
        · rw [if_pos (Or.inr hlt)]
          constructor
          · simp
          · intro e he
            rcases List.mem_append.mp he with h1 | h1
            · have := hminlb e h1
              omega
            · rw [List.mem_singleton.mp h1]
        · rw [if_neg (by tauto)]
          constructor
          · rw [List.map_append]
            exact List.mem_append_left _ hminmem
          · intro e he
            rcases List.mem_append.mp he with h1 | h1
            · exact hminlb e h1
            · rw [List.mem_singleton.mp h1]
              omega

theorem depthBoundsOk_add_event_nodes {st : RoomEvents} {evs : List Event}
    (h : depthBoundsOk st) (hevs : ∀ e ∈ evs, e.depth ≠ -1) :
    depthBoundsOk (st.add_event_nodes evs) := by
  induction evs generalizing st with
  | nil => exact h
  | cons e evs ih =>
    rw [RoomEvents.add_event_nodes, List.foldl_cons]
    exact ih (depthBoundsOk_addNodeStep h (hevs e (List.mem_cons_self _ _)))
      (fun x hx => hevs x (List.mem_cons_of_mem _ hx))

theorem update_event_edges_nodes (st : RoomEvents) :
    st.update_event_edges.dag.nodes = st.dag.nodes := by
  simp only [RoomEvents.update_event_edges]
  exact nodes_updateEdgesPhase _ _

theorem update_event_edges_max (st : RoomEvents) :
    st.update_event_edges.max_depth = st.max_depth := rfl

theorem update_event_edges_min (st : RoomEvents) :
    st.update_event_edges.min_depth = st.min_depth := rfl

theorem depthBoundsOk_update_event_edges {st : RoomEvents}
    (h : depthBoundsOk st) : depthBoundsOk st.update_event_edges := by
  unfold depthBoundsOk at *
  rw [update_event_edges_nodes, update_event_edges_max,
    update_event_edges_min]
  exact h

theorem depthBoundsOk_new (roomId serverName : String)
    (flds : List Field) : depthBoundsOk (newRoomEvents roomId serverName flds) := by
  refine ⟨?_, ?_, ?_⟩
  · intro e he
    simp [newRoomEvents] at he
  · intro _
    exact ⟨rfl, rfl⟩
  · intro habs
    exact absurd rfl habs

theorem depthBoundsOk_ingestAll {init : RoomEvents}
    {batches : List (List Event)} (h : depthBoundsOk init)
    (hb : ∀ b ∈ batches, ∀ e ∈ b, e.depth ≠ -1) :
    depthBoundsOk (ingestAll init batches) := by
  induction batches generalizing init with
  | nil => exact h
  | cons b bs ih =>
    rw [ingestAll, List.foldl_cons]
    exact ih
      (depthBoundsOk_update_event_edges
        (depthBoundsOk_add_event_nodes h (hb b (List.mem_cons_self _ _))))
      (fun x hx => hb x (List.mem_cons_of_mem _ hx))

/-- Claim C2 (amended): over any sequence of ingested batches in which no
event carries depth exactly `-1` (the sentinel value the source reserves
for "not yet set"), `max_depth` and `min_depth` are both `-1` while the
graph is empty, and once a node exists they are attained depths bounding
every present node's depth — i.e. the true maximum and minimum. The
original claim admits depth `-1` as input and fails there, as the
counterexample below shows. -/
theorem depth_bounds_correct (roomId serverName : String)
    (flds : List Field) (batches : List (List Event))
    (h : ∀ b ∈ batches, ∀ e ∈ b, e.depth ≠ -1) :
    let st := ingestAll (newRoomEvents roomId serverName flds) batches
    (st.dag.nodes = [] → st.max_depth = -1 ∧ st.min_depth = -1) ∧
      (st.dag.nodes ≠ [] →
        (st.max_depth ∈ st.dag.nodes.map Event.depth ∧
            ∀ e ∈ st.dag.nodes, e.depth ≤ st.max_depth) ∧
          (st.min_depth ∈ st.dag.nodes.map Event.depth ∧
            ∀ e ∈ st.dag.nodes, st.min_depth ≤ e.depth)) :=
  (depthBoundsOk_ingestAll (depthBoundsOk_new roomId serverName flds) h).2

/-- The single event of depth 5 used to instantiate
`depth_bounds_correct`. -/
def evA5 : Event := ⟨"A", 5, [], []⟩

/-- Concrete instantiation of `depth_bounds_correct`: a single batch with
one event of depth 5, whose hypotheses hold by computation. -/
theorem depth_bounds_correct_witness :
    (∀ b ∈ [[evA5]], ∀ e ∈ b, e.depth ≠ -1) ∧
      (let st := ingestAll (newRoomEvents "!w" "s" []) [[evA5]]
       (st.dag.nodes = [] → st.max_depth = -1 ∧ st.min_depth = -1) ∧
        (st.dag.nodes ≠ [] →
          (st.max_depth ∈ st.dag.nodes.map Event.depth ∧
              ∀ e ∈ st.dag.nodes, e.depth ≤ st.max_depth) ∧
            (st.min_depth ∈ st.dag.nodes.map Event.depth ∧
              ∀ e ∈ st.dag.nodes, st.min_depth ≤ e.depth))) :=
  ⟨by decide, depth_bounds_correct "!w" "s" [] [[evA5]] (by decide)⟩

/-- Concrete store refuting claim C2 as stated: ingest depth `-1`, then
depth `5`, in one batch. -/
def stC2 : RoomEvents :=
  ingestAll (newRoomEvents "!r" "srv" [])
    [[⟨"A", -1, [], []⟩, ⟨"B", 5, [], []⟩]]

/-- Counterexample to claim C2 as stated: with the admissible input depths
`-1` and `5`, the stored `min_depth` is `5`, yet a present node has depth
`-1 < 5`, so `min_depth` is not the true minimum (the sentinel test
mistook the stored `-1` for "not yet set"). -/
theorem depth_sentinel_collision :
    stC2.min_depth = 5 ∧ ∃ e ∈ stC2.dag.nodes, e.depth < stC2.min_depth := by
  decide

/-! ## Claims C4 and C5: backward extraction -/

theorem mem_collect_incoming (g : Dag) (l : List Nat) :
    ∀ (acc : List (Nat × Nat)) (e : Nat × Nat),
      e ∈ l.foldl
          (fun acc i =>
            (g.edges.filter (fun x => decide (x.2 = i))).foldl
              (fun a x => insertNew x a) acc)
          acc ↔
        e ∈ acc ∨ (e ∈ g.edges ∧ e.2 ∈ l) := by
  induction l with
  | nil => intro acc e; simp
  | cons i l ih =>
    intro acc e
    rw [List.foldl_cons, ih, foldl_insertNew_mem]
    simp only [List.mem_filter, List.mem_cons, decide_eq_true_eq]
    tauto

/-- Claim C4 (amended): for every graph and boundary index set, the edge
set `new_nodes_edges` collects (and `add_earlier_events_to_data_set`
appends) is exactly the set of edges whose TARGET is a newly-discovered
node; boundary-to-new edges are included because the new node is the
edge's target, not because the boundary node is its source as the original
claim says (the counterexample below refutes that reading). -/
theorem backward_new_edges_iff (g : Dag) (fromIndices : List Nat)
    (e : Nat × Nat) :
    e ∈ (new_nodes_edges g fromIndices).2 ↔
      e ∈ g.edges ∧ e.2 ∈ (new_nodes_edges g fromIndices).1 := by
  unfold new_nodes_edges
  rw [mem_collect_incoming]
  simp

/-- Concrete store with nodes `A → B → C` (`A` declares predecessor `B`,
`B` declares predecessor `C`), indices 0, 1, 2. -/
def stABC : RoomEvents :=
  ingestAll (newRoomEvents "!r" "srv" [])
    [[⟨"A", 3, ["B"], []⟩, ⟨"B", 2, ["C"], []⟩, ⟨"C", 1, [], []⟩]]

/-- Counterexample to claim C4 as stated: extending backward from
boundary `{A}` (index 0) appends the edge `A → B = (0, 1)`, whose source
`0` is NOT a newly-discovered node, so the appended edge set is not "the
set of edges whose source is a newly-discovered node". -/
theorem backward_edges_not_source_based :
    ((0, 1) : Nat × Nat) ∈ (new_nodes_edges stABC.dag [0]).2 ∧
      (0 : Nat) ∉ (new_nodes_edges stABC.dag [0]).1 := by
  decide

/-- Claim C5: on the three-node graph `A → B → C`, extending backward from
boundary `{A}` appends exactly the nodes `B, C` and exactly the edges
`A → B, B → C` to the data set. -/
theorem backward_extraction_abc :
    (stABC.add_earlier_events_to_data_set DataSet.new ["A"]).map
        (fun ds =>
          (ds.nodes.map DataSetNode.id,
            ds.edges.map (fun e => (e.«from», e.«to»)))) =
      some (["B", "C"], [("A", "B"), ("B", "C")]) := by
  decide

/-! ## Claim C6: extraction output vs the boundary set -/

theorem new_nodes_not_in_boundary (g : Dag) (fr : List Nat) :
    ∀ i ∈ (new_nodes_edges g fr).1, i ∉ fr := by
  intro i hi
  unfold new_nodes_edges at hi
  have h := List.mem_filter.mp hi
  simpa using h.2

theorem eq_index_of_same_id {l : List Event}
    (hdist : l.Pairwise (fun a b => a.event_id ≠ b.event_id))
    {i j : Nat} {ev ev' : Event} (hi : l.get? i = some ev)
    (hj : l.get? j = some ev') (hid : ev.event_id = ev'.event_id) :
    i = j := by
  rcases List.get?_eq_some.mp hi with ⟨hi', hgi⟩
  rcases List.get?_eq_some.mp hj with ⟨hj', hgj⟩
  by_contra hne
  rcases Nat.lt_or_ge i j with hlt | hge
  · have h2 := (List.pairwise_iff_get.mp hdist) ⟨i, hi'⟩ ⟨j, hj'⟩
      (Fin.mk_lt_mk.mpr hlt)
    rw [hgi, hgj] at h2
    exact h2 hid
  · have hlt : j < i := Nat.lt_of_le_of_ne hge (fun h => hne h.symm)
    have h2 := (List.pairwise_iff_get.mp hdist) ⟨j, hj'⟩ ⟨i, hi'⟩
      (Fin.mk_lt_mk.mpr hlt)
    rw [hgi, hgj] at h2
    exact h2 hid.symm

theorem delta_nodes_not_in_boundary (st : RoomEvents)
    (fromIds : List String) (fromIndices newIdx : List Nat)
    (nodes : List DataSetNode)
    (hdist : st.dag.nodes.Pairwise (fun a b => a.event_id ≠ b.event_id))
    (hmap : ∀ p ∈ st.events_map,
      (st.dag.nodes.get? p.2).map Event.event_id = some p.1)
    (hfi : mapMOption (fun id => st.events_map.lookup id) fromIds =
      some fromIndices)
    (hnotin : ∀ i ∈ newIdx, i ∉ fromIndices)
    (hnodes : mapMOption
        (fun i => (st.dag.nodes.get? i).map
          (fun ev => ev.to_data_set_node st.server_name st.fields))
        newIdx = some nodes) :
    ∀ nd ∈ nodes, nd.id ∉ fromIds := by
  intro nd hnd hinFrom
  rcases mem_of_mapMOption hnodes nd hnd with ⟨i, hiIdx, hproj⟩
  cases hgi : st.dag.nodes.get? i with
  | none => rw [hgi] at hproj; simp at hproj
  | some ev =>
    rw [hgi] at hproj
    simp only [Option.map_some', Option.some.injEq] at hproj
    have hndid : nd.id = ev.event_id := by rw [← hproj]; rfl
    rcases mapMOption_forward hfi nd.id hinFrom with ⟨j, hjIdx, hlook⟩
    have hpair := mem_of_lookup_eq_some hlook
    have hmapj := hmap _ hpair
    cases hgj : st.dag.nodes.get? j with
    | none => rw [hgj] at hmapj; simp at hmapj
    | some ev' =>
      rw [hgj] at hmapj
      simp only [Option.map_some', Option.some.injEq] at hmapj
      have hij : i = j :=
        eq_index_of_same_id hdist hgi hgj (by rw [← hndid, hmapj])
      exact hnotin i hiIdx (hij ▸ hjIdx)

/-- Claim C6 (amended): provided no two nodes of the graph share an
identifier and every identifier-map entry points at a node carrying that
identifier (both hold in every store built without duplicate-identifier
re-ingestion), neither `add_earlier_events_to_data_set` nor
`add_new_events_to_data_set` appends a node whose identifier is in the
boundary set. Without the no-duplicate proviso the original claim fails: the
counterexample below appends an old node carrying a boundary
identifier. -/
theorem extraction_disjoint_from_boundary (st : RoomEvents)
    (ds ds' : DataSet) (fromIds : List String)
    (hdist : st.dag.nodes.Pairwise (fun a b => a.event_id ≠ b.event_id))
    (hmap : ∀ p ∈ st.events_map,
      (st.dag.nodes.get? p.2).map Event.event_id = some p.1) :
    (st.add_earlier_events_to_data_set ds fromIds = some ds' →
      ∀ nd ∈ ds'.nodes.drop ds.nodes.length, nd.id ∉ fromIds) ∧
      (st.add_new_events_to_data_set ds fromIds = some ds' →
        ∀ nd ∈ ds'.nodes.drop ds.nodes.length, nd.id ∉ fromIds) := by
  constructor
  · intro h
    unfold RoomEvents.add_earlier_events_to_data_set at h
    cases hdelta : st.earlier_events_delta fromIds with
    | none => rw [hdelta] at h; simp at h
    | some pr =>
      rw [hdelta] at h
      simp only [Option.map_some', Option.some.injEq] at h
      have hdrop : ds'.nodes.drop ds.nodes.length = pr.1 := by
        rw [← h]
        exact List.drop_left _ _
      rw [hdrop]
      unfold RoomEvents.earlier_events_delta at hdelta
      simp only [bind, Option.bind_eq_bind] at hdelta
      rw [Option.bind_eq_some] at hdelta
      rcases hdelta with ⟨fromIndices, hfi, hrest⟩
      rw [Option.bind_eq_some] at hrest
      rcases hrest with ⟨nodes, hnodes, hrest2⟩
      rw [Option.bind_eq_some] at hrest2
      rcases hrest2 with ⟨edges, _, hpure⟩
      have hpr1 : pr.1 = nodes := by
        cases hpure
        rfl
      rw [hpr1]
      exact delta_nodes_not_in_boundary st fromIds fromIndices
        (new_nodes_edges st.dag fromIndices).1 nodes hdist hmap hfi
        (new_nodes_not_in_boundary st.dag fromIndices) hnodes
  · intro h
    unfold RoomEvents.add_new_events_to_data_set at h
    cases hdelta : st.new_events_delta fromIds with
    | none => rw [hdelta] at h; simp at h
    | some pr =>
      rw [hdelta] at h
      simp only [Option.map_some', Option.some.injEq] at h
      have hdrop : ds'.nodes.drop ds.nodes.length = pr.1 := by
        rw [← h]
        exact List.drop_left _ _
      rw [hdrop]
      unfold RoomEvents.new_events_delta at hdelta
      simp only [bind, Option.bind_eq_bind] at hdelta
      rw [Option.bind_eq_some] at hdelta
      rcases hdelta with ⟨fromIndices, hfi, hrest⟩
      rw [Option.bind_eq_some] at hrest
      rcases hrest with ⟨nodes, hnodes, hrest2⟩
      rw [Option.bind_eq_some] at hrest2
      rcases hrest2 with ⟨edges, _, hpure⟩
      have hpr1 : pr.1 = nodes := by
        cases hpure
        rfl
      rw [hpr1]
      exact delta_nodes_not_in_boundary st fromIds fromIndices
        (new_nodes_edges st.dag.reverse fromIndices).1 nodes hdist hmap hfi
        (new_nodes_not_in_boundary st.dag.reverse fromIndices) hnodes

/-- The concrete data set `add_earlier_events_to_data_set` produces on
`stABC` from boundary `{A}`. -/
def dsABCearlier : DataSet :=
  (stABC.add_earlier_events_to_data_set DataSet.new ["A"]).getD DataSet.new

/-- Concrete instantiation of `extraction_disjoint_from_boundary` on the
`A → B → C` store with boundary `{A}`: the hypotheses hold by computation
and the appended nodes avoid the boundary identifier. -/
theorem extraction_disjoint_from_boundary_witness :
    stABC.dag.nodes.Pairwise (fun a b => a.event_id ≠ b.event_id) ∧
      (∀ p ∈ stABC.events_map,
        (stABC.dag.nodes.get? p.2).map Event.event_id = some p.1) ∧
      (∀ nd ∈ dsABCearlier.nodes.drop DataSet.new.nodes.length,
        nd.id ∉ (["A"] : List String)) :=
  ⟨by decide, by decide,
    (extraction_disjoint_from_boundary stABC DataSet.new dsABCearlier ["A"]
          (by decide) (by decide)).1
      rfl⟩

/-- Concrete store in which the identifier `A` was re-ingested: node 0 is
the stale `A` (depth 1), node 1 is `B` (declaring predecessor `A`), node 2
is the fresh `A` (depth 3, declaring predecessor `B`); the identifier map
points `A` at node 2, while stale edges keep node 0 reachable. -/
def stDup : RoomEvents :=
  ingestAll (newRoomEvents "!r" "srv" [])
    [[⟨"A", 1, [], []⟩], [⟨"B", 2, ["A"], []⟩], [⟨"A", 3, ["B"], []⟩]]

/-- Counterexample to claim C6 as stated: extending backward from
boundary `{A}` on `stDup` appends the nodes with identifiers `B` and `A`,
so a node whose identifier is in the boundary set IS appended (the stale
node 0 also carries the boundary identifier `A`). -/
theorem duplicate_id_reaches_boundary_id :
    (stDup.add_earlier_events_to_data_set DataSet.new ["A"]).map
        (fun ds => ds.nodes.map DataSetNode.id) = some ["B", "A"] ∧
      "A" ∈ (["A"] : List String) := by
  exact ⟨by decide, by decide⟩

/-! ## Claim C7: decode failure is fatal and leaves the store untouched -/

/-- Claim C7: if any raw record of a batch fails to decode, the whole
construction or add-batch call fails — `add_events` parses the entire
batch before touching any state, so the aborted call produces no new
store and the existing Graph Store is left completely unchanged (the
model returns `none` and never threads the state through a partial
mutation). -/
theorem decode_failure_aborts_whole_batch {α : Type}
    (decode : α → Option Event) (st : RoomEvents) (raws : List α)
    (h : ∃ r ∈ raws, decode r = none) :
    st.add_events decode raws = none := by
  unfold RoomEvents.add_events parse_events
  simp only [bind, Option.bind_eq_bind]
  rw [mapMOption_none h]
  rfl

/-- Concrete instantiation of `decode_failure_aborts_whole_batch`: a
one-record batch whose record fails to decode. -/
theorem decode_failure_aborts_whole_batch_witness :
    (∃ r ∈ [()], (fun _ => (none : Option Event)) r = none) ∧
      (newRoomEvents "!x" "s" []).add_events
          (fun _ => (none : Option Event)) [()] = none :=
  ⟨⟨(), List.mem_singleton.mpr rfl, rfl⟩,
    decode_failure_aborts_whole_batch (fun _ => none)
      (newRoomEvents "!x" "s" []) [()]
      ⟨(), List.mem_singleton.mpr rfl, rfl⟩⟩

/-! ## Claim C8: extraction is a pure, deterministic read -/

/-- Claim C8: the extraction calls are pure reads — in the model their
types return only the grown data set, never a modified store, mirroring
the source's `&self` receivers — and what they append depends only on the
graph, the identifier map, the server name and the display fields plus
the supplied boundary set: two calls on stores agreeing on those four
components, with arbitrary different data sets passed in, append equal
node and edge sequences. -/
theorem extraction_pure_and_deterministic (st1 st2 : RoomEvents)
    (ds1 ds2 : DataSet) (fromIds : List String)
    (hdag : st1.dag = st2.dag) (hemap : st1.events_map = st2.events_map)
    (hsrv : st1.server_name = st2.server_name)
    (hfld : st1.fields = st2.fields) :
    ((st1.add_earlier_events_to_data_set ds1 fromIds).map
        (fun r => (r.nodes.drop ds1.nodes.length,
          r.edges.drop ds1.edges.length)) =
      (st2.add_earlier_events_to_data_set ds2 fromIds).map
        (fun r => (r.nodes.drop ds2.nodes.length,
          r.edges.drop ds2.edges.length))) ∧
      ((st1.add_new_events_to_data_set ds1 fromIds).map
          (fun r => (r.nodes.drop ds1.nodes.length,
            r.edges.drop ds1.edges.length)) =
        (st2.add_new_events_to_data_set ds2 fromIds).map
          (fun r => (r.nodes.drop ds2.nodes.length,
            r.edges.drop ds2.edges.length))) := by
  have he : st1.earlier_events_delta fromIds =
      st2.earlier_events_delta fromIds := by
    unfold RoomEvents.earlier_events_delta
    rw [hdag, hemap, hsrv, hfld]
  have hn : st1.new_events_delta fromIds = st2.new_events_delta fromIds := by
    unfold RoomEvents.new_events_delta
    rw [hdag, hemap, hsrv, hfld]
  constructor
  · unfold RoomEvents.add_earlier_events_to_data_set
    rw [he]
    cases st2.earlier_events_delta fromIds with
    | none => rfl
    | some pr => simp [List.drop_left]
  · unfold RoomEvents.add_new_events_to_data_set
    rw [hn]
    cases st2.new_events_delta fromIds with
    | none => rfl
    | some pr => simp [List.drop_left]

/-- A second store agreeing with `stABC` on the graph, identifier map,
server name and display fields but different elsewhere. -/
def stABCvariant : RoomEvents :=
  { stABC with room_id := "!other", latest_events := [] }

/-- A non-empty data set to seed one of the two calls. -/
def dsSeed : DataSet :=
  { nodes := [⟨"X", "x", 0, ⟨"b", "w"⟩⟩], edges := [] }

/-- Concrete instantiation of `extraction_pure_and_deterministic`:
`stABC` versus a variant differing in `room_id` and stale frontier lists,
seeded with different data sets, still appends identical output. -/
theorem extraction_pure_and_deterministic_witness :
    stABC.dag = stABCvariant.dag ∧
      stABC.events_map = stABCvariant.events_map ∧
      stABC.server_name = stABCvariant.server_name ∧
      stABC.fields = stABCvariant.fields ∧
      (((stABC.add_earlier_events_to_data_set DataSet.new ["A"]).map
            (fun r => (r.nodes.drop DataSet.new.nodes.length,
              r.edges.drop DataSet.new.edges.length)) =
          (stABCvariant.add_earlier_events_to_data_set dsSeed ["A"]).map
            (fun r => (r.nodes.drop dsSeed.nodes.length,
              r.edges.drop dsSeed.edges.length))) ∧
        ((stABC.add_new_events_to_data_set DataSet.new ["A"]).map
            (fun r => (r.nodes.drop DataSet.new.nodes.length,
              r.edges.drop DataSet.new.edges.length)) =
          (stABCvariant.add_new_events_to_data_set dsSeed ["A"]).map
            (fun r => (r.nodes.drop dsSeed.nodes.length,
              r.edges.drop dsSeed.edges.length)))) :=
  ⟨rfl, rfl, rfl, rfl,
    extraction_pure_and_deterministic stABC stABCvariant DataSet.new dsSeed
      ["A"] rfl rfl rfl rfl⟩

/-! ## Claim C9: change_fields touches only the field set -/

/-- Claim C9: `change_fields` replaces exactly the configured
display-field set; the DAG's nodes and edges, the identifier map, the
depth map, the frontier and orphan lists, the depth bounds, the room
identifier and the server name are all unchanged. -/
theorem change_fields_frame (st : RoomEvents) (f : List Field) :
    (st.change_fields f).fields = f ∧
      (st.change_fields f).dag = st.dag ∧
      (st.change_fields f).events_map = st.events_map ∧
      (st.change_fields f).depth_map = st.depth_map ∧
      (st.change_fields f).latest_events = st.latest_events ∧
      (st.change_fields f).earliest_events = st.earliest_events ∧
      (st.change_fields f).orphan_events = st.orphan_events ∧
      (st.change_fields f).max_depth = st.max_depth ∧
      (st.change_fields f).min_depth = st.min_depth ∧
      (st.change_fields f).room_id = st.room_id ∧
      (st.change_fields f).server_name = st.server_name :=
  ⟨rfl, rfl, rfl, rfl, rfl, rfl, rfl, rfl, rfl, rfl, rfl⟩

/-! ## Claim C10: the edge set only ever grows -/

theorem update_event_edges_dag (st : RoomEvents) :
    st.update_event_edges.dag = updateEdgesPhase st.dag st.events_map := rfl

theorem edges_add_event_nodes (evs : List Event) :
    ∀ st : RoomEvents, (st.add_event_nodes evs).dag.edges = st.dag.edges := by
  induction evs with
  | nil => intro st; rfl
  | cons e evs ih =>
    intro st
    rw [RoomEvents.add_event_nodes, List.foldl_cons]
    have h := ih (addNodeStep st e)
    rw [RoomEvents.add_event_nodes] at h
    rw [h]
    rfl

/-- Claim C10: every `add_events` call that succeeds preserves every edge
already in the DAG — node insertion leaves the edge list untouched and
the edge pass only inserts through `update_edge`, never removes, whatever
the batch contains (duplicate identifiers overwriting the map included). -/
theorem edges_grow_monotonically {α : Type} (decode : α → Option Event)
    (st : RoomEvents) (raws : List α) (st' : RoomEvents)
    (h : st.add_events decode raws = some st') :
    ∀ e ∈ st.dag.edges, e ∈ st'.dag.edges := by
  intro e he
  unfold RoomEvents.add_events at h
  simp only [bind, Option.bind_eq_bind] at h
  rw [Option.bind_eq_some] at h
  rcases h with ⟨evs, _, hpure⟩
  simp only [pure, Option.some.injEq] at hpure
  rw [← hpure, update_event_edges_dag]
  apply edges_subset_updateEdgesPhase
  rw [edges_add_event_nodes]
  exact he

/-- The event `D` (declaring predecessor `A`) used to grow `stABC`. -/
def evD : Event := ⟨"D", 4, ["A"], []⟩

/-- The store after growing `stABC` by the batch `[D]`. -/
def stABCD : RoomEvents := (stABC.add_events Option.some [evD]).getD stABC

/-- Concrete instantiation of `edges_grow_monotonically`: growing the
`A → B → C` store by one event keeps the pre-existing edge `(0, 1)`. -/
theorem edges_grow_monotonically_witness :
    stABC.add_events Option.some [evD] = some stABCD ∧
      ((0, 1) : Nat × Nat) ∈ stABC.dag.edges ∧
      ((0, 1) : Nat × Nat) ∈ stABCD.dag.edges :=
  ⟨rfl, by decide,
    edges_grow_monotonically Option.some stABC [evD] stABCD rfl (0, 1)
      (by decide)⟩

end VisDag
